import Mathlib

/-!
Verification of the VoxUp "press office" web application (app.py,
content_gen.py, social_adapters.py).

Python strings are modelled as `List Char` (a Python `str` is a sequence of
Unicode code points).  Each Python helper is translated into a Lean
definition of the same name.  External library calls (the OpenAI client,
PyPDF2, python-docx) are modelled by passing their outcome as an explicit
argument: `Option`/`Except` values whose error case stands for a raised
exception (or, for the splitter, `none` stands for non-termination of the
Python loop).
-/

set_option maxHeartbeats 1000000

/-- Python strings as lists of Unicode code points. -/
abbrev Str := List Char

/-- Whitespace recognised by Python `str.split()` / `str.strip()`
(restricted to the ASCII whitespace characters, which are the only ones
relevant to the texts handled by the application). -/
def pySpace (c : Char) : Bool :=
  c = ' ' || c = '\t' || c = '\n' || c = '\r' || c = '\x0b' || c = '\x0c'

/-- Python `s.strip()`: drop leading and trailing whitespace. -/
def pyStrip (s : Str) : Str :=
  ((s.dropWhile pySpace).reverse.dropWhile pySpace).reverse

/-- Python `s.split()`: split on runs of whitespace, discarding empty
tokens.  The fuel argument keeps the recursion structural (so terms compute
by kernel reduction); it is instantiated with the string length, which the
recursion never exhausts. -/
def pySplitF : Nat → Str → List Str
  | _, [] => []
  | 0, _ :: _ => []
  | fuel + 1, c :: cs =>
    if pySpace c then pySplitF fuel cs
    else (c :: cs.takeWhile (fun x => !pySpace x)) ::
           pySplitF fuel (cs.dropWhile (fun x => !pySpace x))

def pySplit (s : Str) : List Str := pySplitF s.length s

/-- Join a list of strings with single spaces (the shape of the chunks the
splitter builds: `cur + " " + w`). -/
def joinSp : List Str → Str
  | [] => []
  | [w] => w
  | w :: ws => w ++ ' ' :: joinSp ws

/-- First occurrence of `pat` in `hay`: `some (before, after)` such that
`hay = before ++ pat ++ after`, or `none` when `pat` does not occur.
Models Python `pat in hay` / `hay.split(pat, 1)` for non-empty `pat`. -/
def findSplit (pat : Str) : Str → Option (Str × Str)
  | [] => if pat.isPrefixOf ([] : Str) then some ([], []) else none
  | c :: t =>
    if pat.isPrefixOf (c :: t) then some ([], (c :: t).drop pat.length)
    else (findSplit pat t).map (fun p => (c :: p.1, p.2))

/-- Python `pat in hay` as a Bool. -/
def containsSub (pat hay : Str) : Bool := (findSplit pat hay).isSome

/-- Python `str.lower()` restricted to ASCII letters (all channel names
passed by the application are ASCII). -/
def lowerChar (c : Char) : Char :=
  if 'A' ≤ c ∧ c ≤ 'Z' then Char.ofNat (c.toNat + 32) else c

def pyLower (s : Str) : Str := s.map lowerChar

/-- Python slicing `c[:room]` where `room` may be negative
(`c[:-k]` drops the last `k` characters). -/
def pyTakeInt (c : Str) (room : Int) : Str :=
  if room < 0 then c.take ((c.length : Int) + room).toNat else c.take room.toNat

/-- A token produced by `pySplit`: non-empty, no whitespace characters. -/
def wordOk (w : Str) : Prop := w ≠ [] ∧ ∀ c ∈ w, pySpace c = false

/-- A chunk in word form: a non-empty group of proper words. -/
def goodGroup (l : List Str) : Prop := l ≠ [] ∧ ∀ x ∈ l, wordOk x


/-! ## The channel formatter (app.py lines 122-151) -/

/-- The inner `_bold_char` of `unicode_bold`: ASCII letters and digits are moved
to the "mathematical bold" block by a contiguous offset, everything else is
returned unchanged.  `'𝐀' = U+1D400`, `'𝐚' = U+1D41A`, `'𝟎' = U+1D7CE`. -/
def boldChar (c : Char) : Char :=
  if 'A' ≤ c ∧ c ≤ 'Z' then Char.ofNat ('𝐀'.toNat + (c.toNat - 'A'.toNat))
  else if 'a' ≤ c ∧ c ≤ 'z' then Char.ofNat ('𝐚'.toNat + (c.toNat - 'a'.toNat))
  else if '0' ≤ c ∧ c ≤ '9' then Char.ofNat ('𝟎'.toNat + (c.toNat - '0'.toNat))
  else c

/-- app.py `unicode_bold`. -/
def unicode_bold (text : Str) : Str := text.map boldChar

/-- Membership in the character ranges of `EMOJI_PATTERN` (app.py lines
130-137). -/
def isEmojiChar (c : Char) : Bool :=
  let n := c.toNat
  decide ((0x1F600 ≤ n ∧ n ≤ 0x1F64F) ∨ (0x1F300 ≤ n ∧ n ≤ 0x1F5FF) ∨
    (0x1F680 ≤ n ∧ n ≤ 0x1F6FF) ∨ (0x1F1E0 ≤ n ∧ n ≤ 0x1F1FF) ∨
    (0x2600 ≤ n ∧ n ≤ 0x26FF) ∨ (0x2700 ≤ n ∧ n ≤ 0x27BF))

/-- app.py `remove_emojis`: `EMOJI_PATTERN.sub("", text)` deletes every
character lying in the ranges of the pattern. -/
def remove_emojis (text : Str) : Str := text.filter (fun c => !isEmojiChar c)

/-- app.py `format_for_channel`: Social gets the Unicode-bold transform of
the whole text; every other channel gets the emoji-stripped text wrapped in
a strong tag (only the part before the first colon when one is present). -/
def format_for_channel (base_text : Str) (channel : Str) : Str :=
  if pyLower channel = ("social".data) then unicode_bold base_text
  else
    let no_emoji := remove_emojis base_text
    match findSplit ([':']) no_emoji with
    | some (head, tail) =>
        ("<strong>".data) ++ pyStrip head ++ (":</strong>".data) ++ tail
    | none => ("<strong>".data) ++ no_emoji ++ ("</strong>".data)

/-! ## The length-bounded splitter (app.py lines 179-205) -/

/-- The inner `while len(w) > limit` loop of `split_into_posts`: slice a
word into `limit`-sized pieces, returning the pieces and the remainder.
`fuel` bounds the number of iterations; `none` models non-termination of
the Python loop (which occurs exactly when `limit = 0` and `w` is
non-empty, since then `w = w[limit:]` never shrinks). -/
def hardslice (limit : Nat) : Nat → Str → Option (List Str × Str)
  | fuel, w =>
    if w.length ≤ limit then some ([], w)
    else match fuel with
      | 0 => none
      | fuel + 1 =>
        (hardslice limit fuel (w.drop limit)).map
          (fun p => (w.take limit :: p.1, p.2))

/-- The greedy word-packing loop of `split_into_posts`, carried out over
the word list with accumulator `(chunks, cur)`. -/
def splitLoop (limit : Nat) : List Str → Str → List Str → Option (List Str × Str)
  | chunks, cur, [] => some (chunks, cur)
  | chunks, cur, w :: ws =>
    let candidate := if cur = [] then w else pyStrip (cur ++ ' ' :: w)
    if candidate.length ≤ limit then splitLoop limit chunks candidate ws
    else
      let chunks1 := if cur = [] then chunks else chunks ++ [cur]
      if limit < w.length then
        match hardslice limit w.length w with
        | none => none
        | some (cs, r) => splitLoop limit (chunks1 ++ cs) r ws
      else splitLoop limit chunks1 w ws

/-- The chunk list of `split_into_posts` before the numbering
post-processing step. -/
def rawChunks (text : Str) (limit : Nat) : Option (List Str) :=
  let t := pyStrip text
  if t = [] then some []
  else (splitLoop limit [] [] (pySplit t)).map
    (fun p => if p.2 = [] then p.1 else p.1 ++ [p.2])

/-- The numbering prefix `f"{i}/{total} "`. -/
def pfx (i total : Nat) : Str :=
  Nat.toDigits 10 i ++ '/' :: Nat.toDigits 10 total ++ [' ']

/-- One step of the numbering loop: prepend the prefix and truncate the
body so that `prefix + body` fits the limit (Python
`prefix + (c[:room] if len(c) > room else c)` with `room = limit - len(prefix)`,
an `int` that may be negative). -/
def applyNum (limit i total : Nat) (c : Str) : Str :=
  let p := pfx i total
  let room : Int := (limit : Int) - (p.length : Int)
  p ++ (if room < (c.length : Int) then pyTakeInt c room else c)

/-- The `for i, c in enumerate(chunks, 1)` numbering loop. -/
def numberChunks (limit total : Nat) : Nat → List Str → List Str
  | _, [] => []
  | i, c :: cs => applyNum limit i total c :: numberChunks limit total (i + 1) cs

/-- app.py `split_into_posts`.  `none` models non-termination (possible
only for `limit = 0`). -/
def split_into_posts (text : Str) (limit : Nat) : Option (List Str) :=
  (rawChunks text limit).map
    (fun chunks =>
      if 1 < chunks.length then numberChunks limit chunks.length 1 chunks
      else chunks)

/-- Remove the numbering prefix from chunk `i` (used to state the
round-trip claim: "stripping the numbering prefixes"). -/
def stripFrom (total : Nat) : Nat → List Str → List Str
  | _, [] => []
  | i, c :: cs => c.drop (pfx i total).length :: stripFrom total (i + 1) cs

/-- Strip the numbering prefixes from a splitter output (they are present
exactly when more than one chunk was produced). -/
def stripNums (out : List Str) : List Str :=
  if 1 < out.length then stripFrom out.length 1 out else out

/-- The round-trip operation of the claim: split, strip the numbering
prefixes, join the chunks with spaces, and re-split on whitespace. -/
def roundTrip (text : Str) (limit : Nat) : Option (List Str) :=
  (split_into_posts text limit).map (fun out => pySplit (joinSp (stripNums out)))

/-- Pointwise hypothesis of the round-trip property: chunk `i` together
with its numbering prefix fits within the limit (so the numbering pass
truncates nothing). -/
def FitsFrom (limit total : Nat) : Nat → List Str → Prop
  | _, [] => True
  | i, c :: cs => c.length + (pfx i total).length ≤ limit ∧ FitsFrom limit total (i + 1) cs

instance decFitsFrom (limit total : Nat) :
    (i : Nat) → (cs : List Str) → Decidable (FitsFrom limit total i cs)
  | _, [] => Decidable.isTrue True.intro
  | i, c :: cs =>
    letI := decFitsFrom limit total (i + 1) cs
    instDecidableAnd

/-! ## Profile handling (app.py lines 106-120, 478-500, 677-700) -/

/-- The session profile record (app.py `ensure_session_defaults`). -/
structure Profile where
  first_name : Str
  last_name : Str
  role : Str
  tones : List Str
  tone_other : Str
  channels : List Str
  add_ai : Bool
deriving DecidableEq

/-- The default profile installed by `ensure_session_defaults`. -/
def defaultProfile : Profile :=
  { first_name := [], last_name := [], role := [], tones := [],
    tone_other := [], channels := [("Social".data)], add_ai := false }

/-- app.py `save_onboarding` (the part that mutates the session profile).
Python `channels or ["Social"]` keeps the submitted list whenever it is
non-empty and falls back to `["Social"]` otherwise. -/
def save_onboarding (p : Profile) (first_name last_name role : Str)
    (tones : List Str) (channels : List Str) (tone_other : Str) : Profile :=
  { p with
    first_name := pyStrip first_name
    last_name := pyStrip last_name
    role := pyStrip role
    tones := tones
    channels := if channels = [] then [("Social".data)] else channels
    tone_other := pyStrip tone_other }

/-- app.py `profile_save` (the part that mutates the session profile);
`add_ai` is the optional checkbox value, stored as `add_ai == "on"`. -/
def profile_save (p : Profile) (first_name last_name role : Str)
    (tones : List Str) (channels : List Str) (add_ai : Option Str)
    (tone_other : Str) : Profile :=
  { p with
    first_name := pyStrip first_name
    last_name := pyStrip last_name
    role := pyStrip role
    tones := tones
    channels := if channels = [] then [("Social".data)] else channels
    add_ai := add_ai = some ("on".data)
    tone_other := pyStrip tone_other }

/-- Modelled from the spec: the fixed closed channel vocabulary
("social/website/press, or finer-grained facebook/instagram/x/website/press",
in the Italian naming of this version, Social/Sito/Stampa).  No such list exists
in src/; the claim that saved channels are drawn from it is checked against
this definition. -/
def CHANNEL_VOCAB : List Str :=
  [("Social".data), ("Sito".data), ("Stampa".data), ("Website".data),
   ("Press".data), ("Facebook".data), ("Instagram".data), ("X".data)]

/-! ## The LLM rewrite and its fallback (app.py lines 246-272,
content_gen.py lines 139-183) -/

/-- The deterministic local template built by the fallback branch of
`ai_rewrite_or_fallback` (app.py lines 264-272).  It performs no external
call: it is a pure function of the request context and profile. -/
def fallback_template (base_context : Str) (p : Profile) : Str :=
  let full_name := pyStrip (pyStrip p.first_name ++ ' ' :: pyStrip p.last_name)
  pyStrip p.role ++ ' ' :: full_name ++ (": ecco i punti principali.\n- ".data)
    ++ base_context.take 240
    ++ ("...\n\nDichiarazione: \"Mettiamo al centro cittadini e territori. Lavoriamo con serietà e risultati concreti.\"".data)

/-- app.py `ai_rewrite_or_fallback`.  The external OpenAI call is modelled
by its outcome `llm`: `some out` is a successful completion with content
`out`; `none` covers every failure path (no client configured, a network
error, a malformed response) — all of which the Python code catches and
routes to the local template. -/
def ai_rewrite_or_fallback (llm : Option Str) (base_context : Str)
    (p : Profile) (style_guide : Str) : Str :=
  match llm with
  | some out => pyStrip out
  | none => fallback_template base_context p

/-- The section markers used by content_gen.py `_extract`. -/
def ALL_TAGS : List Str :=
  [("COMUNICATO_STAMPA".data), ("SITO_ISTITUZIONALE".data),
   ("SOCIAL_FB_IG".data), ("SOCIAL_LI".data), ("SOCIAL_X".data)]

/-- content_gen.py marker text `f">>>{tag}<<<"`. -/
def marker (tag : Str) : Str := (">>>".data) ++ tag ++ ("<<<".data)

/-- content_gen.py `_extract`: take the text after the marker of the tag and cut
it at the first other known marker; a missing marker yields the empty
string. -/
def extractSection (tag : Str) (text : Str) : Str :=
  match findSplit (marker tag) text with
  | none => []
  | some (_, after) =>
    pyStrip (ALL_TAGS.foldl
      (fun acc t =>
        if containsSub (marker t) acc ∧ t ≠ tag then
          match findSplit (marker t) acc with
          | some (before, _) => before
          | none => acc
        else acc)
      after)

/-- The result record of content_gen.py `generate_outputs`. -/
structure Outputs where
  press_release : Str
  website_article : Str
  social_fb_ig : Str
  social_li : Str
  social_x : Str
deriving DecidableEq

/-- content_gen.py `generate_outputs`.  The external chat-completion call
is modelled by its outcome `llm`; `generate_outputs` wraps it in no
`try/except`, so a failure (`none`) propagates as an exception
(`Except.error`) instead of producing a fallback. -/
def generate_outputs (llm : Option Str) : Except Unit Outputs :=
  match llm with
  | none => Except.error ()
  | some text =>
    Except.ok
      { press_release := extractSection ("COMUNICATO_STAMPA".data) text
        website_article := extractSection ("SITO_ISTITUZIONALE".data) text
        social_fb_ig := extractSection ("SOCIAL_FB_IG".data) text
        social_li := extractSection ("SOCIAL_LI".data) text
        social_x := extractSection ("SOCIAL_X".data) text }

/-! ## Document text extraction (app.py lines 153-177, content_gen.py
lines 15-50) -/

/-- Join a list of strings with newlines (Python `"\n".join(...)`). -/
def joinNl : List Str → Str
  | [] => []
  | [w] => w
  | w :: ws => w ++ '\n' :: joinNl ws

/-- Join a list of strings with blank lines (Python `"\n\n".join(...)`). -/
def joinNl2 : List Str → Str
  | [] => []
  | [w] => w
  | w :: ws => w ++ '\n' :: '\n' :: joinNl2 ws

/-- app.py `extract_text_from_upload`.  The external document parsers are
modelled by their outcomes: `txtDecode` is the UTF-8 decode of the bytes
(`errors="ignore"` never fails), `pdfParse` is the PyPDF2 result (the list
of per-page `extract_text()` values, `none` standing for a page with no
text, Python `or ""`), `docxParse` is the python-docx paragraph list;
`Except.error` stands for an exception raised by the parser, which the
Python code catches and converts to `""`. -/
def extract_text_from_upload (filename : Str) (txtDecode : Str)
    (pdfParse : Except Unit (List (Option Str)))
    (docxParse : Except Unit (List Str)) : Str :=
  let name := pyLower filename
  if (".txt".data).isSuffixOf name ∨ (".md".data).isSuffixOf name then
    txtDecode
  else if (".pdf".data).isSuffixOf name then
    match pdfParse with
    | Except.error _ => []
    | Except.ok pages => pyStrip (joinNl ((pages.take 20).map (fun pg => pg.getD [])))
  else if (".docx".data).isSuffixOf name then
    match docxParse with
    | Except.error _ => []
    | Except.ok paras => joinNl paras
  else []

/-- content_gen.py `_read_pdf` (no page cap, no strip). -/
def readPdf (r : Except Unit (List (Option Str))) : Str :=
  match r with
  | Except.error _ => []
  | Except.ok pages => joinNl (pages.map (fun pg => pg.getD []))

/-- content_gen.py `_read_docx`. -/
def readDocx (r : Except Unit (List Str)) : Str :=
  match r with
  | Except.error _ => []
  | Except.ok paras => joinNl paras

/-- content_gen.py `_read_txt` (the open/read may raise, e.g. for a missing
file; decoding itself uses `errors="ignore"`). -/
def readTxt (r : Except Unit Str) : Str :=
  match r with
  | Except.error _ => []
  | Except.ok s => s

/-- The three possible parser outcomes for one path handed to
`extract_texts_from_files` (only the one selected by the extension is
consulted). -/
structure FileOutcome where
  pdf : Except Unit (List (Option Str))
  docx : Except Unit (List Str)
  txt : Except Unit Str

/-- The per-path dispatch of content_gen.py `extract_texts_from_files`. -/
def fileChunk (path : Str) (o : FileOutcome) : Str :=
  let pl := pyLower path
  if (".pdf".data).isSuffixOf pl then readPdf o.pdf
  else if (".docx".data).isSuffixOf pl then readDocx o.docx
  else readTxt o.txt

/-- content_gen.py `extract_texts_from_files`: extract every path, keep the
non-empty chunks, join with blank lines, cap at 60000 characters. -/
def extract_texts_from_files (files : List (Str × FileOutcome)) : Str :=
  (joinNl2 ((files.map (fun f => fileChunk f.1 f.2)).filter (fun c => c ≠ []))).take 60000

/-- A `FileOutcome` in which every parser raised. -/
def allFail : FileOutcome :=
  { pdf := Except.error (), docx := Except.error (), txt := Except.error () }

/-! ## Lemmas: the whitespace tokenizer -/

lemma length_dropWhile_le' (p : Char → Bool) (l : List Char) :
    (l.dropWhile p).length ≤ l.length := by
  induction l with
  | nil => simp [List.dropWhile]
  | cons a t ih =>
    by_cases h : p a
    · simp only [List.dropWhile_cons, h, if_true]
      exact Nat.le_succ_of_le ih
    · simp [List.dropWhile_cons, h]

lemma pySplitF_fuel : ∀ (fuel : Nat) (s : Str), s.length ≤ fuel →
    pySplitF fuel s = pySplitF s.length s := by
  intro fuel
  induction fuel using Nat.strong_induction_on with
  | _ fuel ih =>
    intro s hs
    cases s with
    | nil => cases fuel <;> rfl
    | cons c cs =>
      cases fuel with
      | zero => simp at hs
      | succ f =>
        have hcs : cs.length ≤ f := by
          simp only [List.length_cons] at hs
          omega
        rw [show (c :: cs).length = cs.length + 1 from rfl]
        rw [pySplitF, pySplitF]
        by_cases h : pySpace c
        · rw [if_pos h, if_pos h]
          exact (ih f (by omega) cs hcs).trans
            (ih cs.length (by omega) cs le_rfl).symm
        · rw [if_neg h, if_neg h]
          have hd : (cs.dropWhile (fun x => !pySpace x)).length ≤ cs.length :=
            length_dropWhile_le' _ cs
          rw [ih f (by omega) _ (le_trans hd hcs),
            ih cs.length (by omega) _ hd]

lemma pySplit_cons_space {c : Char} (cs : Str) (h : pySpace c = true) :
    pySplit (c :: cs) = pySplit cs := by
  unfold pySplit
  rw [show (c :: cs).length = cs.length + 1 from rfl, pySplitF, if_pos h]

lemma pySplit_cons_word {c : Char} (cs : Str) (h : pySpace c = false) :
    pySplit (c :: cs) =
      (c :: cs.takeWhile (fun x => !pySpace x)) ::
        pySplit (cs.dropWhile (fun x => !pySpace x)) := by
  unfold pySplit
  rw [show (c :: cs).length = cs.length + 1 from rfl, pySplitF,
    if_neg (by simp [h])]
  rw [pySplitF_fuel cs.length _ (length_dropWhile_le' _ cs)]

lemma wordOk_pySplit_aux : ∀ (n : Nat) (t : Str), t.length ≤ n →
    ∀ w ∈ pySplit t, wordOk w := by
  intro n
  induction n with
  | zero =>
    intro t ht w hw
    cases t with
    | nil => simp [pySplit, pySplitF] at hw
    | cons c cs => simp at ht
  | succ n ih =>
    intro t ht w hw
    cases t with
    | nil => simp [pySplit, pySplitF] at hw
    | cons c cs =>
      have hcs : cs.length ≤ n := by
        simp only [List.length_cons] at ht
        omega
      by_cases h : pySpace c
      · rw [pySplit_cons_space cs h] at hw
        exact ih cs hcs w hw
      · rw [pySplit_cons_word cs (by simpa using h)] at hw
        rcases List.mem_cons.mp hw with rfl | hw
        · refine ⟨by simp, ?_⟩
          intro x hx
          rcases List.mem_cons.mp hx with rfl | hx
          · simpa using h
          · simpa using List.mem_takeWhile_imp hx
        · exact ih _ (le_trans (length_dropWhile_le' _ cs) hcs) w hw

lemma wordOk_pySplit (t : Str) : ∀ w ∈ pySplit t, wordOk w :=
  wordOk_pySplit_aux t.length t le_rfl

lemma tw_all {p : Char → Bool} {l : Str} (h : ∀ c ∈ l, p c = true) :
    l.takeWhile p = l := by
  induction l with
  | nil => rfl
  | cons a t ih =>
    rw [List.takeWhile_cons_of_pos (h a (by simp))]
    rw [ih fun c hc => h c (by simp [hc])]

lemma dw_all {p : Char → Bool} {l : Str} (h : ∀ c ∈ l, p c = true) :
    l.dropWhile p = [] := by
  induction l with
  | nil => rfl
  | cons a t ih =>
    rw [List.dropWhile_cons_of_pos (h a (by simp))]
    exact ih fun c hc => h c (by simp [hc])

lemma tw_none {p : Char → Bool} {l : Str} (h : ∀ c ∈ l, p c = false) :
    l.takeWhile p = [] := by
  cases l with
  | nil => rfl
  | cons a t => exact List.takeWhile_cons_of_neg (by simp [h a (by simp)])

lemma dw_none {p : Char → Bool} {l : Str} (h : ∀ c ∈ l, p c = false) :
    l.dropWhile p = l := by
  cases l with
  | nil => rfl
  | cons a t => exact List.dropWhile_cons_of_neg (by simp [h a (by simp)])

lemma pySplit_all_space (s : Str) (h : ∀ c ∈ s, pySpace c = true) :
    pySplit s = [] := by
  induction s with
  | nil => rfl
  | cons a t ih =>
    rw [pySplit_cons_space t (h a (by simp))]
    exact ih fun c hc => h c (by simp [hc])

lemma pySplit_append_spaces_aux (s : Str) (hs : ∀ c ∈ s, pySpace c = true) :
    ∀ (n : Nat) (y : Str), y.length ≤ n → pySplit (y ++ s) = pySplit y := by
  have hsq : ∀ c ∈ s, (fun x => !pySpace x) c = false := by
    intro c hcs; simp [hs c hcs]
  intro n
  induction n with
  | zero =>
    intro y hy
    cases y with
    | nil => rw [List.nil_append, pySplit_all_space s hs]; rfl
    | cons c cs => simp at hy
  | succ n ih =>
    intro y hy
    cases y with
    | nil => rw [List.nil_append, pySplit_all_space s hs]; rfl
    | cons c cs =>
      have hcs : cs.length ≤ n := by
        simp only [List.length_cons] at hy
        omega
      by_cases hc : pySpace c
      · rw [List.cons_append, pySplit_cons_space _ hc, pySplit_cons_space _ hc,
          ih cs hcs]
      · have hc' : pySpace c = false := by simpa using hc
        rw [List.cons_append, pySplit_cons_word _ hc', pySplit_cons_word _ hc']
        have hdw : (cs ++ s).dropWhile (fun x => !pySpace x) =
            cs.dropWhile (fun x => !pySpace x) ++ s := by
          rw [List.dropWhile_append]
          split
          · next he =>
            rw [List.isEmpty_iff] at he
            rw [he, List.nil_append, dw_none hsq]
          · rfl
        have htw : (cs ++ s).takeWhile (fun x => !pySpace x) =
            cs.takeWhile (fun x => !pySpace x) := by
          rw [List.takeWhile_append]
          split
          · next hl =>
            have hpr := List.takeWhile_prefix (l := cs) (p := fun x => !pySpace x)
            rw [hpr.eq_of_length hl, tw_none hsq, List.append_nil]
          · rfl
        rw [hdw, htw,
          ih _ (le_trans (length_dropWhile_le' _ cs) hcs)]

lemma pySplit_append_spaces (y s : Str) (hs : ∀ c ∈ s, pySpace c = true) :
    pySplit (y ++ s) = pySplit y :=
  pySplit_append_spaces_aux s hs y.length y le_rfl

lemma pySplit_word (w : Str) (h : wordOk w) : pySplit w = [w] := by
  obtain ⟨hne, hch⟩ := h
  cases w with
  | nil => exact absurd rfl hne
  | cons c w' =>
    rw [pySplit_cons_word w' (hch c (by simp))]
    rw [tw_all (fun x hx => by simp [hch x (by simp [hx])])]
    rw [dw_all (fun x hx => by simp [hch x (by simp [hx])])]
    rfl

lemma joinSp_cons (w : Str) (a : Str) (t : List Str) :
    joinSp (w :: a :: t) = w ++ ' ' :: joinSp (a :: t) := rfl

lemma pySplit_joinSp (ws : List Str) (h : ∀ w ∈ ws, wordOk w) :
    pySplit (joinSp ws) = ws := by
  induction ws with
  | nil => rfl
  | cons w t ih =>
    cases t with
    | nil => simpa [joinSp] using pySplit_word w (h w (by simp))
    | cons a u =>
      obtain ⟨hne, hch⟩ := h w (by simp)
      cases w with
      | nil => exact absurd rfl hne
      | cons c w' =>
        rw [joinSp_cons, List.cons_append, pySplit_cons_word _ (hch c (by simp))]
        have hq : ∀ x ∈ w', (fun x => !pySpace x) x = true := by
          intro x hx; simp [hch x (by simp [hx])]
        rw [List.takeWhile_append_of_pos hq, List.dropWhile_append_of_pos hq]
        rw [List.takeWhile_cons_of_neg (by simp [pySpace])]
        rw [List.dropWhile_cons_of_neg (by simp [pySpace])]
        rw [pySplit_cons_space _ (by simp [pySpace])]
        rw [ih fun x hx => h x (by simp [hx])]
        simp

/-! ## Lemmas: stripping -/

lemma mem_dropWhile_of_neg {p : Char → Bool} {l : Str} {c : Char}
    (hc : c ∈ l) (hp : p c = false) : c ∈ l.dropWhile p := by
  induction l with
  | nil => simp at hc
  | cons a t ih =>
    by_cases hpa : p a
    · rw [List.dropWhile_cons_of_pos hpa]
      rcases List.mem_cons.mp hc with rfl | h
      · rw [hp] at hpa; exact absurd hpa (by simp)
      · exact ih h
    · rw [List.dropWhile_cons_of_neg hpa]; exact hc

lemma pyStrip_ne_nil {s : Str} {c : Char} (hc : c ∈ s) (hcs : pySpace c = false) :
    pyStrip s ≠ [] := by
  unfold pyStrip
  have h1 : c ∈ s.dropWhile pySpace := mem_dropWhile_of_neg hc hcs
  have h2 : c ∈ (s.dropWhile pySpace).reverse := List.mem_reverse.mpr h1
  have h3 : c ∈ (s.dropWhile pySpace).reverse.dropWhile pySpace :=
    mem_dropWhile_of_neg h2 hcs
  intro he
  rw [List.reverse_eq_nil_iff] at he
  rw [he] at h3
  simp at h3

lemma pyStrip_no_outer (s : Str) (a : Char) (r : Str) (hsa : s = a :: r)
    (ha : pySpace a = false) (m : Str) (b : Char) (hsb : s = m ++ [b])
    (hb : pySpace b = false) : pyStrip s = s := by
  unfold pyStrip
  have h1 : s.dropWhile pySpace = s := by
    rw [hsa]; exact List.dropWhile_cons_of_neg (by simp [ha])
  rw [h1]
  have h2 : s.reverse.dropWhile pySpace = s.reverse := by
    rw [hsb]
    simp only [List.reverse_append, List.reverse_cons, List.reverse_nil,
      List.nil_append, List.singleton_append]
    exact List.dropWhile_cons_of_neg (by simp [hb])
  rw [h2, List.reverse_reverse]

lemma joinSp_head (ws : List Str) (hne : ws ≠ []) (h : ∀ w ∈ ws, wordOk w) :
    ∃ a r, joinSp ws = a :: r ∧ pySpace a = false := by
  cases ws with
  | nil => exact absurd rfl hne
  | cons w t =>
    obtain ⟨hwne, hch⟩ := h w (by simp)
    cases w with
    | nil => exact absurd rfl hwne
    | cons c w' =>
      cases t with
      | nil => exact ⟨c, w', rfl, hch c (by simp)⟩
      | cons a u =>
        refine ⟨c, w' ++ ' ' :: joinSp (a :: u), ?_, hch c (by simp)⟩
        rw [joinSp_cons]; simp

lemma joinSp_snoc (cws : List Str) (w : Str) (h : cws ≠ []) :
    joinSp (cws ++ [w]) = joinSp cws ++ ' ' :: w := by
  induction cws with
  | nil => exact absurd rfl h
  | cons x t ih =>
    cases t with
    | nil => rfl
    | cons y u =>
      calc joinSp ((x :: y :: u) ++ [w])
          = joinSp (x :: (y :: (u ++ [w]))) := by simp
        _ = x ++ ' ' :: joinSp (y :: (u ++ [w])) := by
            cases u with
            | nil => rfl
            | cons z v => rfl
        _ = x ++ ' ' :: joinSp ((y :: u) ++ [w]) := by simp
        _ = x ++ ' ' :: (joinSp (y :: u) ++ ' ' :: w) := by rw [ih (by simp)]
        _ = joinSp (x :: y :: u) ++ ' ' :: w := by rw [joinSp_cons]; simp

lemma pyStrip_join_word (cws : List Str) (w : Str) (hcw : cws ≠ [])
    (hall : ∀ x ∈ cws, wordOk x) (hw : wordOk w) :
    pyStrip (joinSp cws ++ ' ' :: w) = joinSp cws ++ ' ' :: w := by
  obtain ⟨a, r, har, hana⟩ := joinSp_head cws hcw hall
  obtain ⟨hwne, hwch⟩ := hw
  have hb : pySpace (w.getLast hwne) = false := hwch _ (List.getLast_mem hwne)
  refine pyStrip_no_outer _ a (r ++ ' ' :: w) (by rw [har]; simp) hana
    (joinSp cws ++ ' ' :: w.dropLast) (w.getLast hwne) ?_ hb
  conv_lhs => rw [show w = w.dropLast ++ [w.getLast hwne] from
    (List.dropLast_append_getLast hwne).symm]
  simp

/-! ## Lemmas: whole-string decompositions -/

lemma pySplit_dropWhile (t : Str) :
    pySplit (t.dropWhile pySpace) = pySplit t := by
  induction t with
  | nil => rfl
  | cons a u ih =>
    by_cases h : pySpace a
    · rw [List.dropWhile_cons_of_pos h, ih, pySplit_cons_space u h]
    · rw [List.dropWhile_cons_of_neg h]

lemma pyStrip_decomp (t : Str) :
    ∃ sp, t.dropWhile pySpace = pyStrip t ++ sp ∧ ∀ c ∈ sp, pySpace c = true := by
  refine ⟨((t.dropWhile pySpace).reverse.takeWhile pySpace).reverse, ?_, ?_⟩
  · conv_lhs => rw [← List.reverse_reverse (t.dropWhile pySpace),
      ← List.takeWhile_append_dropWhile pySpace (t.dropWhile pySpace).reverse]
    rw [List.reverse_append]
    rfl
  · intro c hc
    rw [List.mem_reverse] at hc
    exact List.mem_takeWhile_imp hc

lemma pySplit_pyStrip (t : Str) : pySplit (pyStrip t) = pySplit t := by
  obtain ⟨sp, hdec, hsp⟩ := pyStrip_decomp t
  have h1 := pySplit_dropWhile t
  rw [hdec, pySplit_append_spaces _ sp hsp] at h1
  exact h1

lemma dropWhile_head_neg {p : Char → Bool} {l : Str} {c : Char} {rest : Str}
    (h : l.dropWhile p = c :: rest) : p c = false := by
  induction l with
  | nil => simp at h
  | cons a t ih =>
    by_cases hp : p a
    · rw [List.dropWhile_cons_of_pos hp] at h; exact ih h
    · rw [List.dropWhile_cons_of_neg hp] at h
      injection h with h1 _
      subst h1
      simpa using hp

lemma pyStrip_head (t : Str) (hne : pyStrip t ≠ []) :
    ∃ c r, pyStrip t = c :: r ∧ pySpace c = false := by
  obtain ⟨sp, hdec, _⟩ := pyStrip_decomp t
  cases hs : pyStrip t with
  | nil => exact absurd hs hne
  | cons c r =>
    refine ⟨c, r, rfl, ?_⟩
    rw [hs] at hdec
    have hu : t.dropWhile pySpace = c :: (r ++ sp) := by rw [hdec]; rfl
    exact dropWhile_head_neg hu

lemma pySplit_ne_nil_of_strip (t : Str) (hne : pyStrip t ≠ []) :
    pySplit t ≠ [] := by
  obtain ⟨c, r, hs, hc⟩ := pyStrip_head t hne
  rw [← pySplit_pyStrip t, hs, pySplit_cons_word r hc]
  simp

/-! ## Lemmas: the hard slicer -/

lemma hardslice_spec (limit : Nat) (hl : 1 ≤ limit) :
    ∀ fuel (w : Str), w.length ≤ fuel + limit →
      ∃ cs r, hardslice limit fuel w = some (cs, r) ∧
        w = cs.flatten ++ r ∧
        (∀ c ∈ cs, c.length = limit) ∧
        r.length ≤ limit ∧
        (w ≠ [] → r ≠ []) ∧
        w.length = cs.length * limit + r.length := by
  intro fuel
  induction fuel with
  | zero =>
    intro w hw
    refine ⟨[], w, ?_, by simp, by simp, by simpa using hw, fun h => h, by simp⟩
    rw [hardslice, if_pos (by simpa using hw)]
  | succ fuel ih =>
    intro w hw
    by_cases hle : w.length ≤ limit
    · refine ⟨[], w, ?_, by simp, by simp, hle, fun h => h, by simp⟩
      rw [hardslice, if_pos hle]
    · push_neg at hle
      obtain ⟨cs, r, heq, hjoin, hlen, hrle, hrne, hcount⟩ :=
        ih (w.drop limit) (by simp; omega)
      have hdlen : (w.drop limit).length = w.length - limit := by simp
      refine ⟨w.take limit :: cs, r, ?_, ?_, ?_, hrle, fun _ => ?_, ?_⟩
      · rw [hardslice, if_neg (by omega), heq]
        rfl
      · rw [List.flatten_cons, List.append_assoc, ← hjoin, List.take_append_drop]
      · intro c hc
        rcases List.mem_cons.mp hc with rfl | hc
        · simp; omega
        · exact hlen c hc
      · apply hrne
        intro hd
        rw [hd] at hdlen
        simp at hdlen
        omega
      · rw [hdlen] at hcount
        rw [List.length_cons, Nat.succ_mul]
        omega

/-! ## Lemmas: the greedy packing loop -/

lemma splitLoop_cons_fit (limit : Nat) (chunks : List Str) (cur w : Str) (ws : List Str)
    (h : (if cur = [] then w else pyStrip (cur ++ ' ' :: w)).length ≤ limit) :
    splitLoop limit chunks cur (w :: ws) =
      splitLoop limit chunks (if cur = [] then w else pyStrip (cur ++ ' ' :: w)) ws := by
  rw [splitLoop]
  simp only [h, if_true]

lemma splitLoop_cons_slice (limit : Nat) (chunks : List Str) (cur w : Str) (ws : List Str)
    (h : ¬ (if cur = [] then w else pyStrip (cur ++ ' ' :: w)).length ≤ limit)
    (hw : limit < w.length) :
    splitLoop limit chunks cur (w :: ws) =
      match hardslice limit w.length w with
      | none => none
      | some (cs, r) =>
        splitLoop limit ((if cur = [] then chunks else chunks ++ [cur]) ++ cs) r ws := by
  rw [splitLoop]
  simp only [h, if_false, hw, if_true]

lemma splitLoop_cons_noslice (limit : Nat) (chunks : List Str) (cur w : Str) (ws : List Str)
    (h : ¬ (if cur = [] then w else pyStrip (cur ++ ' ' :: w)).length ≤ limit)
    (hw : ¬ limit < w.length) :
    splitLoop limit chunks cur (w :: ws) =
      splitLoop limit (if cur = [] then chunks else chunks ++ [cur]) w ws := by
  rw [splitLoop]
  simp only [h, if_false, hw, if_true]

lemma splitLoop_spec (limit : Nat) (hl : 1 ≤ limit) :
    ∀ (ws : List Str) (chunks : List Str) (cur : Str),
      (∀ w ∈ ws, wordOk w) →
      (∀ c ∈ chunks, c.length ≤ limit ∧ c ≠ []) →
      cur.length ≤ limit →
      ∃ chunks2 cur2, splitLoop limit chunks cur ws = some (chunks2, cur2) ∧
        (∀ c ∈ chunks2, c.length ≤ limit ∧ c ≠ []) ∧
        cur2.length ≤ limit ∧
        (ws = [] → chunks2 = chunks ∧ cur2 = cur) ∧
        (ws ≠ [] → cur2 ≠ []) := by
  intro ws
  induction ws with
  | nil =>
    intro chunks cur _ hchunks hcur
    exact ⟨chunks, cur, rfl, hchunks, hcur, fun _ => ⟨rfl, rfl⟩,
      fun h => absurd rfl h⟩
  | cons w ws ih =>
    intro chunks cur hws hchunks hcur
    obtain ⟨hwne, hwch⟩ := hws w (by simp)
    have hws' : ∀ x ∈ ws, wordOk x := fun x hx => hws x (by simp [hx])
    by_cases hcand : (if cur = [] then w else pyStrip (cur ++ ' ' :: w)).length ≤ limit
    · -- the word fits in the current chunk
      rw [splitLoop_cons_fit limit chunks cur w ws hcand]
      have hcandne : (if cur = [] then w else pyStrip (cur ++ ' ' :: w)) ≠ [] := by
        by_cases hc : cur = []
        · simpa [hc] using hwne
        · rw [if_neg hc]
          cases w with
          | nil => exact absurd rfl hwne
          | cons a t =>
            exact pyStrip_ne_nil (c := a) (by simp) (hwch a (by simp))
      obtain ⟨c2, u2, heq, hch2, hcu2, hnil2, hne2⟩ :=
        ih chunks _ hws' hchunks hcand
      refine ⟨c2, u2, heq, hch2, hcu2, by simp, fun _ => ?_⟩
      cases hws2 : ws with
      | nil =>
        obtain ⟨_, hu⟩ := hnil2 hws2
        rw [hu]
        exact hcandne
      | cons a t => exact hne2 (by simp [hws2])
    · have hchunks1 : ∀ c ∈ (if cur = [] then chunks else chunks ++ [cur]),
          c.length ≤ limit ∧ c ≠ [] := by
        by_cases hc : cur = []
        · simpa [hc] using hchunks
        · rw [if_neg hc]
          intro c hcmem
          rcases List.mem_append.mp hcmem with hcm | hcm
          · exact hchunks c hcm
          · rcases List.mem_singleton.mp hcm with rfl
            exact ⟨hcur, hc⟩
      by_cases hlong : limit < w.length
      · -- the word itself overflows: hard-slice it
        rw [splitLoop_cons_slice limit chunks cur w ws hcand hlong]
        obtain ⟨cs, r, heqh, hjoin, hlen, hrle, hrne, hcount⟩ :=
          hardslice_spec limit hl w.length w (by omega)
        rw [heqh]
        have hchunks2 : ∀ c ∈ (if cur = [] then chunks else chunks ++ [cur]) ++ cs,
            c.length ≤ limit ∧ c ≠ [] := by
          intro c hcmem
          rcases List.mem_append.mp hcmem with hcm | hcm
          · exact hchunks1 c hcm
          · refine ⟨le_of_eq (hlen c hcm), ?_⟩
            intro hcnil
            have := hlen c hcm
            rw [hcnil] at this
            simp at this
            omega
        have hrne' : r ≠ [] := hrne hwne
        obtain ⟨c2, u2, heq, hch2, hcu2, hnil2, hne2⟩ :=
          ih _ r hws' hchunks2 hrle
        refine ⟨c2, u2, heq, hch2, hcu2, by simp, fun _ => ?_⟩
        cases hws2 : ws with
        | nil =>
          obtain ⟨_, hu⟩ := hnil2 hws2
          rw [hu]
          exact hrne'
        | cons a t => exact hne2 (by simp [hws2])
      · -- the word fits on its own: start a new chunk with it
        rw [splitLoop_cons_noslice limit chunks cur w ws hcand hlong]
        obtain ⟨c2, u2, heq, hch2, hcu2, hnil2, hne2⟩ :=
          ih _ w hws' hchunks1 (by omega)
        refine ⟨c2, u2, heq, hch2, hcu2, by simp, fun _ => ?_⟩
        cases hws2 : ws with
        | nil =>
          obtain ⟨_, hu⟩ := hnil2 hws2
          rw [hu]
          exact hwne
        | cons a t => exact hne2 (by simp [hws2])

/-! ## Lemmas: word-level tracking of the packing loop -/

lemma joinSp_eq_nil_iff (cws : List Str) (h : ∀ x ∈ cws, wordOk x) :
    joinSp cws = [] ↔ cws = [] := by
  constructor
  · intro hj
    cases cws with
    | nil => rfl
    | cons w t =>
      obtain ⟨hne, _⟩ := h w (by simp)
      cases t with
      | nil => exact absurd hj hne
      | cons a u =>
        rw [joinSp_cons] at hj
        cases w with
        | nil => exact absurd rfl hne
        | cons c w' => simp at hj
  · intro h
    subst h
    rfl

lemma joinSp_append (xs ys : List Str) (hx : xs ≠ []) (hy : ys ≠ []) :
    joinSp (xs ++ ys) = joinSp xs ++ ' ' :: joinSp ys := by
  induction xs with
  | nil => exact absurd rfl hx
  | cons x t ih =>
    cases t with
    | nil =>
      cases ys with
      | nil => exact absurd rfl hy
      | cons y u =>
        rw [show ([x] ++ y :: u) = x :: y :: u from rfl, joinSp_cons]
        rfl
    | cons z v =>
      rw [show ((x :: z :: v) ++ ys) = x :: (z :: (v ++ ys)) from rfl, joinSp_cons]
      rw [show (z :: (v ++ ys)) = (z :: v) ++ ys from rfl]
      rw [ih (by simp), joinSp_cons]
      simp

lemma goodGroup_flatten_ne_nil (m : List Str) (u : List (List Str))
    (hm : m ≠ []) : (m :: u).flatten ≠ [] := by
  cases m with
  | nil => exact absurd rfl hm
  | cons a t => simp

lemma joinSp_flatten (wss : List (List Str)) (h : ∀ l ∈ wss, l ≠ []) :
    joinSp (wss.map joinSp) = joinSp wss.flatten := by
  induction wss with
  | nil => rfl
  | cons l t ih =>
    cases t with
    | nil => simp [joinSp]
    | cons m u =>
      have hl : l ≠ [] := h l (by simp)
      have hmf : (m :: u).flatten ≠ [] :=
        goodGroup_flatten_ne_nil m u (h m (by simp))
      calc joinSp ((l :: m :: u).map joinSp)
          = joinSp (joinSp l :: joinSp m :: u.map joinSp) := rfl
        _ = joinSp l ++ ' ' :: joinSp ((m :: u).map joinSp) := by
            rw [joinSp_cons]; rfl
        _ = joinSp l ++ ' ' :: joinSp (m :: u).flatten := by
            rw [ih (fun x hx => h x (by simp [hx]))]
        _ = joinSp (l ++ (m :: u).flatten) := by
            rw [joinSp_append l _ hl hmf]
        _ = joinSp (l :: m :: u).flatten := by simp [List.flatten_cons]

lemma splitLoop_words (limit : Nat) :
    ∀ (ws : List Str) (wss : List (List Str)) (cws : List Str),
      (∀ w ∈ ws, wordOk w ∧ w.length ≤ limit) →
      (∀ l ∈ wss, goodGroup l) →
      (∀ x ∈ cws, wordOk x) →
      ∃ (wss2 : List (List Str)) (cws2 : List Str),
        splitLoop limit (wss.map joinSp) (joinSp cws) ws =
          some (wss2.map joinSp, joinSp cws2) ∧
        (∀ l ∈ wss2, goodGroup l) ∧
        (∀ x ∈ cws2, wordOk x) ∧
        wss2.flatten ++ cws2 = wss.flatten ++ cws ++ ws := by
  intro ws
  induction ws with
  | nil =>
    intro wss cws _ hwss hcws
    exact ⟨wss, cws, rfl, hwss, hcws, by simp⟩
  | cons w ws ih =>
    intro wss cws hws hwss hcws
    obtain ⟨hw, hwlen⟩ := hws w (by simp)
    have hws' : ∀ x ∈ ws, wordOk x ∧ x.length ≤ limit :=
      fun x hx => hws x (by simp [hx])
    have hcand_eq : (if joinSp cws = [] then w else pyStrip (joinSp cws ++ ' ' :: w))
        = joinSp (cws ++ [w]) := by
      by_cases hc : cws = []
      · subst hc
        simp [joinSp]
      · rw [if_neg (by rw [joinSp_eq_nil_iff cws hcws]; exact hc)]
        rw [pyStrip_join_word cws w hc hcws hw, joinSp_snoc cws w hc]
    by_cases hfit : (joinSp (cws ++ [w])).length ≤ limit
    · rw [splitLoop_cons_fit limit _ _ w ws (by rw [hcand_eq]; exact hfit),
        hcand_eq]
      obtain ⟨wss2, cws2, heq, h1, h2, h3⟩ := ih wss (cws ++ [w]) hws' hwss
        (by intro x hx
            rcases List.mem_append.mp hx with hx | hx
            · exact hcws x hx
            · rcases List.mem_singleton.mp hx with rfl; exact hw)
      refine ⟨wss2, cws2, heq, h1, h2, ?_⟩
      rw [h3]
      simp
    · have hcwsne : cws ≠ [] := by
        intro h
        subst h
        apply hfit
        simpa [joinSp] using hwlen
      have hcur_ne : ¬ joinSp cws = [] := by
        rw [joinSp_eq_nil_iff cws hcws]; exact hcwsne
      rw [splitLoop_cons_noslice limit _ _ w ws (by rw [hcand_eq]; exact hfit)
        (by omega)]
      have hmap : wss.map joinSp ++ [joinSp cws] = (wss ++ [cws]).map joinSp := by
        simp
      obtain ⟨wss2, cws2, heq, h1, h2, h3⟩ := ih (wss ++ [cws]) [w] hws'
        (by intro l hl
            rcases List.mem_append.mp hl with hl | hl
            · exact hwss l hl
            · rcases List.mem_singleton.mp hl with rfl
              exact ⟨hcwsne, hcws⟩)
        (by intro x hx
            rcases List.mem_singleton.mp hx with rfl; exact hw)
      refine ⟨wss2, cws2, ?_, h1, h2, ?_⟩
      · rw [if_neg hcur_ne, hmap]
        exact heq
      · rw [h3]
        simp

/-! ## Lemmas: the numbering pass -/

lemma numberChunks_length (limit total : Nat) :
    ∀ (cs : List Str) (i : Nat), (numberChunks limit total i cs).length = cs.length := by
  intro cs
  induction cs with
  | nil => intro i; rfl
  | cons c cs ih =>
    intro i
    rw [numberChunks]
    simp [ih]

lemma applyNum_length_le (limit i total : Nat) (c : Str)
    (hp : (pfx i total).length ≤ limit) :
    (applyNum limit i total c).length ≤ limit := by
  unfold applyNum
  dsimp only
  by_cases h : ((limit : Int) - ((pfx i total).length : Int)) < (c.length : Int)
  · rw [if_pos h]
    unfold pyTakeInt
    rw [if_neg (by omega)]
    simp only [List.length_append, List.length_take]
    omega
  · rw [if_neg h]
    simp only [List.length_append]
    omega

lemma applyNum_no_trunc (limit i total : Nat) (c : Str)
    (h : c.length + (pfx i total).length ≤ limit) :
    applyNum limit i total c = pfx i total ++ c := by
  unfold applyNum
  dsimp only
  rw [if_neg (by omega)]

lemma numberChunks_le (limit total : Nat) :
    ∀ (cs : List Str) (i : Nat),
      (∀ j, j < cs.length → (pfx (i + j) total).length ≤ limit) →
      ∀ c ∈ numberChunks limit total i cs, c.length ≤ limit := by
  intro cs
  induction cs with
  | nil =>
    intro i _ c hc
    simp [numberChunks] at hc
  | cons a cs ih =>
    intro i hp c hc
    rw [numberChunks] at hc
    rcases List.mem_cons.mp hc with rfl | hc
    · exact applyNum_length_le _ _ _ a (by simpa using hp 0 (by simp))
    · refine ih (i + 1) (fun j hj => ?_) c hc
      have := hp (j + 1) (by simpa using Nat.succ_lt_succ hj)
      rw [show i + 1 + j = i + (j + 1) from by omega]
      exact this

lemma stripFrom_numberChunks (limit total : Nat) :
    ∀ (cs : List Str) (i : Nat), FitsFrom limit total i cs →
      stripFrom total i (numberChunks limit total i cs) = cs := by
  intro cs
  induction cs with
  | nil => intro i _; rfl
  | cons c cs ih =>
    intro i h
    rw [numberChunks, stripFrom, applyNum_no_trunc limit i total c h.1,
      List.drop_left, ih (i + 1) h.2]

lemma applyNum_pfx_isPrefix (limit i total : Nat) (c : Str) :
    (pfx i total).isPrefixOf (applyNum limit i total c) = true := by
  unfold applyNum
  dsimp only
  rw [ List.isPrefixOf_iff_prefix]
  exact List.prefix_append _ _

lemma numberChunks_pfx (limit total : Nat) :
    ∀ (cs : List Str) (i j : Nat), j < cs.length →
      (pfx (i + j) total).isPrefixOf
        ((numberChunks limit total i cs).getD j []) = true := by
  intro cs
  induction cs with
  | nil => intro i j hj; simp at hj
  | cons c cs ih =>
    intro i j hj
    rw [numberChunks]
    cases j with
    | zero => simpa using applyNum_pfx_isPrefix limit i total c
    | succ j =>
      rw [show i + (j + 1) = (i + 1) + j from by omega]
      simpa using ih (i + 1) j (by simpa using Nat.lt_of_succ_lt_succ hj)

/-! ## Lemmas: assembling the splitter -/

lemma rawChunks_spec (text : Str) (limit : Nat) (hl : 1 ≤ limit) :
    ∃ raw, rawChunks text limit = some raw ∧
      (∀ c ∈ raw, c.length ≤ limit ∧ c ≠ []) ∧
      (raw = [] ↔ pyStrip text = []) := by
  by_cases ht : pyStrip text = []
  · refine ⟨[], ?_, by simp, by simp [ht]⟩
    unfold rawChunks
    rw [if_pos ht]
  · have hwords : ∀ w ∈ pySplit (pyStrip text), wordOk w := wordOk_pySplit _
    obtain ⟨c2, u2, heq, hch, hcu, _, hne⟩ :=
      splitLoop_spec limit hl (pySplit (pyStrip text)) [] [] hwords
        (by simp) (by simp)
    have hwne : pySplit (pyStrip text) ≠ [] := by
      rw [pySplit_pyStrip]
      exact pySplit_ne_nil_of_strip text ht
    have hcur2 : u2 ≠ [] := hne hwne
    refine ⟨c2 ++ [u2], ?_, ?_, ?_⟩
    · unfold rawChunks
      rw [if_neg ht, heq]
      simp [hcur2]
    · intro c hc
      rcases List.mem_append.mp hc with hc | hc
      · exact hch c hc
      · rcases List.mem_singleton.mp hc with rfl
        exact ⟨hcu, hcur2⟩
    · constructor
      · intro h
        exact absurd h (by simp)
      · intro h
        exact absurd h ht

lemma rawChunks_words (text : Str) (limit : Nat) (hl : 1 ≤ limit)
    (hwlen : ∀ w ∈ pySplit text, w.length ≤ limit) (hne : pyStrip text ≠ []) :
    ∃ gps : List (List Str), rawChunks text limit = some (gps.map joinSp) ∧
      (∀ l ∈ gps, goodGroup l) ∧
      gps.flatten = pySplit text := by
  have hwords : ∀ w ∈ pySplit (pyStrip text), wordOk w ∧ w.length ≤ limit := by
    intro w hw
    rw [pySplit_pyStrip] at hw
    exact ⟨wordOk_pySplit text w hw, hwlen w hw⟩
  obtain ⟨wss2, cws2, heq, h1, h2, h3⟩ :=
    splitLoop_words limit (pySplit (pyStrip text)) [] [] hwords (by simp) (by simp)
  simp only [List.map_nil, show joinSp [] = ([] : Str) from rfl] at heq
  simp only [List.flatten_nil, List.nil_append] at h3
  by_cases hc2 : cws2 = []
  · refine ⟨wss2, ?_, h1, ?_⟩
    · unfold rawChunks
      rw [if_neg hne, heq]
      simp [hc2, joinSp]
    · rw [← pySplit_pyStrip text, ← h3, hc2, List.append_nil]
  · refine ⟨wss2 ++ [cws2], ?_, ?_, ?_⟩
    · unfold rawChunks
      rw [if_neg hne, heq]
      have hjne : joinSp cws2 ≠ [] :=
        fun h => hc2 ((joinSp_eq_nil_iff cws2 h2).mp h)
      simp [hjne]
    · intro l hl'
      rcases List.mem_append.mp hl' with hl' | hl'
      · exact h1 l hl'
      · rcases List.mem_singleton.mp hl' with rfl
        exact ⟨hc2, h2⟩
    · rw [List.flatten_append, ← pySplit_pyStrip text, ← h3]
      simp

lemma rawChunks_single_word (text : Str) (limit : Nat) (hl : 1 ≤ limit) (w : Str)
    (hw : pySplit (pyStrip text) = [w]) (hlong : limit < w.length) :
    ∃ raw, rawChunks text limit = some raw ∧
      raw.length = (w.length + limit - 1) / limit := by
  have hwOk : wordOk w := wordOk_pySplit (pyStrip text) w (by rw [hw]; simp)
  have ht : pyStrip text ≠ [] := by
    intro h
    rw [h] at hw
    simp [pySplit, pySplitF] at hw
  obtain ⟨cs, r, heqh, hjoin, hlen, hrle, hrne, hcount⟩ :=
    hardslice_spec limit hl w.length w (by omega)
  have hrne' : r ≠ [] := hrne hwOk.1
  have hrpos : 1 ≤ r.length := by
    cases hr : r with
    | nil => exact absurd hr hrne'
    | cons a t => simp [hr]
  have hnotfit : ¬ (if ([] : Str) = [] then w
      else pyStrip ([] ++ ' ' :: w)).length ≤ limit := by
    simp only [if_pos]
    omega
  have hloop : splitLoop limit [] [] [w] = some (cs, r) := by
    rw [splitLoop_cons_slice limit [] [] w [] hnotfit hlong, heqh]
    simp [splitLoop]
  refine ⟨cs ++ [r], ?_, ?_⟩
  · unfold rawChunks
    rw [if_neg ht, hw, hloop]
    simp [hrne']
  · rw [Nat.mul_comm cs.length limit] at hcount
    have h1 : w.length + limit - 1 = limit * cs.length + (r.length + limit - 1) := by
      omega
    rw [h1, Nat.mul_add_div (by omega)]
    have h2 : (r.length + limit - 1) / limit = 1 :=
      Nat.div_eq_of_lt_le (by omega) (by omega)
    rw [h2]
    simp

/-! ## Lemmas: characters, bold transform, emoji -/

lemma charOfNat_toNat (n : Nat) (h : 0xE000 ≤ n ∧ n < 0x110000) :
    (Char.ofNat n).toNat = n := by
  have hv : n.isValidChar := Or.inr h
  simp only [Char.ofNat, hv, dif_pos]
  rfl

lemma boldChar_upper (c : Char) (h1 : 'A' ≤ c) (h2 : c ≤ 'Z') :
    (boldChar c).toNat = '𝐀'.toNat + (c.toNat - 'A'.toNat) := by
  have hn1 : (65 : Nat) ≤ c.toNat := h1
  have hn2 : c.toNat ≤ (90 : Nat) := h2
  unfold boldChar
  rw [if_pos ⟨h1, h2⟩]
  apply charOfNat_toNat
  have hA : '𝐀'.toNat = 119808 := rfl
  have ha : 'A'.toNat = 65 := rfl
  rw [hA, ha]
  omega

lemma boldChar_lower (c : Char) (h1 : 'a' ≤ c) (h2 : c ≤ 'z')
    (hno : ¬ ('A' ≤ c ∧ c ≤ 'Z')) :
    (boldChar c).toNat = '𝐚'.toNat + (c.toNat - 'a'.toNat) := by
  have hn1 : (97 : Nat) ≤ c.toNat := h1
  have hn2 : c.toNat ≤ (122 : Nat) := h2
  unfold boldChar
  rw [if_neg hno, if_pos ⟨h1, h2⟩]
  apply charOfNat_toNat
  have hA : '𝐚'.toNat = 119834 := rfl
  have ha : 'a'.toNat = 97 := rfl
  rw [hA, ha]
  omega

lemma boldChar_digit (c : Char) (h1 : '0' ≤ c) (h2 : c ≤ '9')
    (hno1 : ¬ ('A' ≤ c ∧ c ≤ 'Z')) (hno2 : ¬ ('a' ≤ c ∧ c ≤ 'z')) :
    (boldChar c).toNat = '𝟎'.toNat + (c.toNat - '0'.toNat) := by
  have hn1 : (48 : Nat) ≤ c.toNat := h1
  have hn2 : c.toNat ≤ (57 : Nat) := h2
  unfold boldChar
  rw [if_neg hno1, if_neg hno2, if_pos ⟨h1, h2⟩]
  apply charOfNat_toNat
  have hA : '𝟎'.toNat = 120782 := rfl
  have ha : '0'.toNat = 48 := rfl
  rw [hA, ha]
  omega

lemma boldChar_other (c : Char) (h1 : ¬ ('A' ≤ c ∧ c ≤ 'Z'))
    (h2 : ¬ ('a' ≤ c ∧ c ≤ 'z')) (h3 : ¬ ('0' ≤ c ∧ c ≤ '9')) :
    boldChar c = c := by
  unfold boldChar
  rw [if_neg h1, if_neg h2, if_neg h3]

lemma isEmojiChar_lower_bound (c : Char) (h : isEmojiChar c = true) :
    0x2600 ≤ c.toNat := by
  unfold isEmojiChar at h
  simp only [decide_eq_true_eq] at h
  rcases h with h | h | h | h | h | h <;> omega

lemma boldChar_emoji (c : Char) (h : isEmojiChar c = true) : boldChar c = c := by
  have h26 : 0x2600 ≤ c.toNat := isEmojiChar_lower_bound c h
  apply boldChar_other
  · rintro ⟨_, hb⟩
    have : c.toNat ≤ (90 : Nat) := hb
    omega
  · rintro ⟨_, hb⟩
    have : c.toNat ≤ (122 : Nat) := hb
    omega
  · rintro ⟨_, hb⟩
    have : c.toNat ≤ (57 : Nat) := hb
    omega

lemma isEmojiChar_boldChar (c : Char) :
    isEmojiChar (boldChar c) = isEmojiChar c := by
  by_cases h1 : 'A' ≤ c ∧ c ≤ 'Z'
  · have hb := boldChar_upper c h1.1 h1.2
    have hn1 : (65 : Nat) ≤ c.toNat := h1.1
    have hn2 : c.toNat ≤ (90 : Nat) := h1.2
    unfold isEmojiChar
    rw [decide_eq_decide, hb]
    have hA : '𝐀'.toNat = 119808 := rfl
    have ha : 'A'.toNat = 65 := rfl
    rw [hA, ha]
    constructor <;> (intro h; rcases h with h | h | h | h | h | h <;> omega)
  · by_cases h2 : 'a' ≤ c ∧ c ≤ 'z'
    · have hb := boldChar_lower c h2.1 h2.2 h1
      have hn1 : (97 : Nat) ≤ c.toNat := h2.1
      have hn2 : c.toNat ≤ (122 : Nat) := h2.2
      unfold isEmojiChar
      rw [decide_eq_decide, hb]
      have hA : '𝐚'.toNat = 119834 := rfl
      have ha : 'a'.toNat = 97 := rfl
      rw [hA, ha]
      constructor <;> (intro h; rcases h with h | h | h | h | h | h <;> omega)
    · by_cases h3 : '0' ≤ c ∧ c ≤ '9'
      · have hb := boldChar_digit c h3.1 h3.2 h1 h2
        have hn1 : (48 : Nat) ≤ c.toNat := h3.1
        have hn2 : c.toNat ≤ (57 : Nat) := h3.2
        unfold isEmojiChar
        rw [decide_eq_decide, hb]
        have hA : '𝟎'.toNat = 120782 := rfl
        have ha : '0'.toNat = 48 := rfl
        rw [hA, ha]
        constructor <;> (intro h; rcases h with h | h | h | h | h | h <;> omega)
      · rw [boldChar_other c h1 h2 h3]

lemma filter_emoji_unicode_bold (s : Str) :
    (unicode_bold s).filter isEmojiChar = s.filter isEmojiChar := by
  unfold unicode_bold
  induction s with
  | nil => rfl
  | cons a t ih =>
    rw [List.map_cons, List.filter_cons, List.filter_cons, isEmojiChar_boldChar a]
    by_cases h : isEmojiChar a
    · rw [boldChar_emoji a h]
      simp [h, ih]
    · simp [h, ih]

lemma remove_emojis_no_emoji (s : Str) :
    ∀ c ∈ remove_emojis s, isEmojiChar c = false := by
  intro c hc
  unfold remove_emojis at hc
  have := List.of_mem_filter hc
  simpa using this

lemma remove_emojis_idem (s : Str) :
    remove_emojis (remove_emojis s) = remove_emojis s := by
  unfold remove_emojis
  rw [List.filter_filter]
  simp

lemma findSplit_parts_subset (pat : Str) :
    ∀ (hay before after : Str), findSplit pat hay = some (before, after) →
      (∀ c ∈ before, c ∈ hay) ∧ (∀ c ∈ after, c ∈ hay) := by
  intro hay
  induction hay with
  | nil =>
    intro before after h
    rw [findSplit] at h
    by_cases hp : pat.isPrefixOf ([] : Str)
    · rw [if_pos hp] at h
      injection h with h
      injection h with h1 h2
      subst h1; subst h2
      exact ⟨by simp, by simp⟩
    · rw [if_neg hp] at h
      exact absurd h (by simp)
  | cons c t ih =>
    intro before after h
    rw [findSplit] at h
    by_cases hp : pat.isPrefixOf (c :: t)
    · rw [if_pos hp] at h
      injection h with h
      injection h with h1 h2
      subst h1; subst h2
      exact ⟨by simp, fun x hx => List.drop_subset _ _ hx⟩
    · rw [if_neg hp] at h
      cases hfs : findSplit pat t with
      | none => rw [hfs] at h; exact absurd h (by simp)
      | some p =>
        rw [hfs] at h
        obtain ⟨b', a'⟩ := p
        rw [show Option.map (fun p => (c :: p.1, p.2)) (some (b', a')) =
          some (c :: b', a') from rfl] at h
        injection h with h
        injection h with h1 h2
        subst h1; subst h2
        obtain ⟨hb, ha⟩ := ih b' a' hfs
        constructor
        · intro x hx
          rcases List.mem_cons.mp hx with rfl | hx
          · simp
          · exact List.mem_cons_of_mem c (hb x hx)
        · exact fun x hx => List.mem_cons_of_mem c (ha x hx)

lemma pyStrip_subset (s : Str) : ∀ c ∈ pyStrip s, c ∈ s := by
  intro c hc
  unfold pyStrip at hc
  rw [List.mem_reverse] at hc
  have h1 := List.dropWhile_sublist (l := (s.dropWhile pySpace).reverse) pySpace
  have h2 : c ∈ (s.dropWhile pySpace).reverse := h1.subset hc
  rw [List.mem_reverse] at h2
  exact (List.dropWhile_sublist pySpace).subset h2

lemma no_emoji_filter (l : Str) (h : ∀ c ∈ l, isEmojiChar c = false) :
    l.filter isEmojiChar = [] := by
  induction l with
  | nil => rfl
  | cons a t ih =>
    rw [List.filter_cons, h a (by simp)]
    simp only [Bool.false_eq_true, if_false]
    exact ih fun c hc => h c (by simp [hc])

lemma pyStrip_eq_nil_iff (s : Str) :
    pyStrip s = [] ↔ ∀ c ∈ s, pySpace c = true := by
  constructor
  · intro h c hc
    by_contra hcs
    exact pyStrip_ne_nil hc (by revert hcs; cases pySpace c <;> simp) h
  · intro h
    unfold pyStrip
    rw [dw_all h]
    rfl

/-! ## The claims -/

/-- C9: the Unicode stylizer returns a string of equal length in which each
ASCII upper-case letter, lower-case letter and digit is replaced by its
"mathematical bold" code point through a contiguous offset from the bases
'𝐀', '𝐚' and '𝟎', and every other character is returned unchanged;
"AB 12" maps to "𝐀𝐁 𝟏𝟐". -/
theorem unicode_bold_spec :
    (∀ s : Str, (unicode_bold s).length = s.length) ∧
    (∀ c : Char, 'A' ≤ c → c ≤ 'Z' →
      (boldChar c).toNat = '𝐀'.toNat + (c.toNat - 'A'.toNat)) ∧
    (∀ c : Char, 'a' ≤ c → c ≤ 'z' →
      (boldChar c).toNat = '𝐚'.toNat + (c.toNat - 'a'.toNat)) ∧
    (∀ c : Char, '0' ≤ c → c ≤ '9' →
      (boldChar c).toNat = '𝟎'.toNat + (c.toNat - '0'.toNat)) ∧
    (∀ c : Char, ¬ ('A' ≤ c ∧ c ≤ 'Z') → ¬ ('a' ≤ c ∧ c ≤ 'z') →
      ¬ ('0' ≤ c ∧ c ≤ '9') → boldChar c = c) ∧
    unicode_bold ("AB 12".data) = ("𝐀𝐁 𝟏𝟐".data) := by
  refine ⟨fun s => by simp [unicode_bold], ?_, ?_, ?_, boldChar_other, by decide⟩
  · exact fun c h1 h2 => boldChar_upper c h1 h2
  · intro c h1 h2
    have hn1 : (97 : Nat) ≤ c.toNat := h1
    refine boldChar_lower c h1 h2 ?_
    rintro ⟨_, hb⟩
    have : c.toNat ≤ (90 : Nat) := hb
    omega
  · intro c h1 h2
    have hn2 : c.toNat ≤ (57 : Nat) := h2
    refine boldChar_digit c h1 h2 ?_ ?_
    · rintro ⟨ha, _⟩
      have : (65 : Nat) ≤ c.toNat := ha
      omega
    · rintro ⟨ha, _⟩
      have : (97 : Nat) ≤ c.toNat := ha
      omega

/-- C9 witness: the stylizer facts instantiated at concrete characters. -/
theorem unicode_bold_spec_witness :
    (boldChar 'B').toNat = '𝐀'.toNat + ('B'.toNat - 'A'.toNat) ∧ boldChar '+' = '+' :=
  ⟨unicode_bold_spec.2.1 'B' (by decide) (by decide),
   unicode_bold_spec.2.2.2.2.1 '+' (by decide) (by decide) (by decide)⟩

/-- C10: for every channel whose lower-cased name is not "social" the
formatter output does not depend on the channel name, and equals the
emoji-stripped text wrapped in a strong tag: with a colon present only the
trimmed head before the first colon (plus the colon) is wrapped and the
rest follows unchanged, otherwise the whole stripped text is wrapped. -/
theorem format_nonsocial_spec :
    (∀ (text ch1 ch2 : Str), pyLower ch1 ≠ ("social".data) →
      pyLower ch2 ≠ ("social".data) →
      format_for_channel text ch1 = format_for_channel text ch2) ∧
    (∀ (text ch : Str), pyLower ch ≠ ("social".data) →
      format_for_channel text ch =
        match findSplit ([':']) (remove_emojis text) with
        | some (head, tail) =>
            ("<strong>".data) ++ pyStrip head ++ (":</strong>".data) ++ tail
        | none => ("<strong>".data) ++ remove_emojis text ++ ("</strong>".data)) ∧
    format_for_channel ("Roma: evento domani".data) ("Sito".data)
      = ("<strong>Roma:</strong> evento domani".data) := by
  refine ⟨?_, ?_, by decide⟩
  · intro text ch1 ch2 h1 h2
    unfold format_for_channel
    rw [if_neg h1, if_neg h2]
  · intro text ch h
    unfold format_for_channel
    rw [if_neg h]

/-- C10 witness: channel independence of the non-social branch at concrete
channels. -/
theorem format_nonsocial_spec_witness :
    format_for_channel ("Ciao".data) ("Sito".data)
      = format_for_channel ("Ciao".data) ("Stampa".data) :=
  format_nonsocial_spec.1 ("Ciao".data) ("Sito".data) ("Stampa".data)
    (by decide) (by decide)

/-- C5 (counterexample): the onboarding save performs no vocabulary check:
a submitted unknown channel "Klingon" is stored verbatim, outside the
fixed channel vocabulary. -/
theorem channels_unvalidated_cex :
    (save_onboarding defaultProfile [] [] [] [] [("Klingon".data)] []).channels
      = [("Klingon".data)] ∧
    ("Klingon".data) ∉ CHANNEL_VOCAB := ⟨rfl, by decide⟩

/-- C5 (amended): both profile-mutating handlers store the submitted
channel list verbatim whenever it is non-empty (unknown values are kept,
not dropped) and fall back to ["Social"] exactly when the submitted list is
empty. -/
theorem channels_fallback_default :
    (∀ (p : Profile) (fn ln r t2 : Str) (ts chans : List Str),
      (save_onboarding p fn ln r ts chans t2).channels
        = if chans = [] then [("Social".data)] else chans) ∧
    (∀ (p : Profile) (fn ln r t2 : Str) (ts chans : List Str) (ai : Option Str),
      (profile_save p fn ln r ts chans ai t2).channels
        = if chans = [] then [("Social".data)] else chans) :=
  ⟨fun _ _ _ _ _ _ _ => rfl, fun _ _ _ _ _ _ _ _ => rfl⟩

/-- C6 (counterexample): content_gen.py `generate_outputs` wraps the
chat-completion call in no try/except and has no fallback: when the
external call fails (network error, missing credential, malformed
response — modelled by `none`) the failure propagates as an exception
instead of a usable result. -/
theorem generate_outputs_error_cex :
    generate_outputs none = Except.error () := rfl

/-- C6 (amended): app.py `ai_rewrite_or_fallback` never fails the request:
on any failure of the external call it returns the deterministic local
template — a pure function of the request, independent of the external
call and always non-empty — while on success it returns the stripped
completion text.  content_gen.py `generate_outputs`, by contrast,
propagates external-call failures (see the counterexample). -/
theorem ai_rewrite_fallback_spec :
    (∀ (bc : Str) (p : Profile) (sg : Str),
      ai_rewrite_or_fallback none bc p sg = fallback_template bc p) ∧
    (∀ (bc : Str) (p : Profile), fallback_template bc p ≠ []) ∧
    (∀ (out bc : Str) (p : Profile) (sg : Str),
      ai_rewrite_or_fallback (some out) bc p sg = pyStrip out) := by
  refine ⟨fun _ _ _ => rfl, ?_, fun _ _ _ _ => rfl⟩
  intro bc p
  unfold fallback_template
  intro h
  simp at h

lemma fileChunk_allFail (p : Str) : fileChunk p allFail = [] := by
  unfold fileChunk allFail readPdf readDocx readTxt
  dsimp only
  split_ifs <;> rfl

/-- C7: document text extraction is total and failure-absorbing: for every
filename and every parser outcome, a failing parser (an exception from the
PDF or DOCX library) or an unsupported extension yields the empty string —
in app.py `extract_text_from_upload` and likewise in the content_gen.py
functions `_read_*` and `extract_texts_from_files`, where a batch in which every file
fails extracts to the empty string. -/
theorem extraction_total_spec :
    (∀ (fn txt : Str) (docx : Except Unit (List Str)),
      (".txt".data).isSuffixOf (pyLower fn) = false →
      (".md".data).isSuffixOf (pyLower fn) = false →
      (".pdf".data).isSuffixOf (pyLower fn) = true →
      extract_text_from_upload fn txt (Except.error ()) docx = []) ∧
    (∀ (fn txt : Str) (pdf : Except Unit (List (Option Str))),
      (".txt".data).isSuffixOf (pyLower fn) = false →
      (".md".data).isSuffixOf (pyLower fn) = false →
      (".pdf".data).isSuffixOf (pyLower fn) = false →
      (".docx".data).isSuffixOf (pyLower fn) = true →
      extract_text_from_upload fn txt pdf (Except.error ()) = []) ∧
    (∀ (fn txt : Str) (pdf : Except Unit (List (Option Str)))
        (docx : Except Unit (List Str)),
      (".txt".data).isSuffixOf (pyLower fn) = false →
      (".md".data).isSuffixOf (pyLower fn) = false →
      (".pdf".data).isSuffixOf (pyLower fn) = false →
      (".docx".data).isSuffixOf (pyLower fn) = false →
      extract_text_from_upload fn txt pdf docx = []) ∧
    readPdf (Except.error ()) = [] ∧
    readDocx (Except.error ()) = [] ∧
    readTxt (Except.error ()) = [] ∧
    (∀ paths : List Str,
      extract_texts_from_files (paths.map (fun p => (p, allFail))) = []) := by
  refine ⟨?_, ?_, ?_, rfl, rfl, rfl, ?_⟩
  · intro fn txt docx h1 h2 h3
    unfold extract_text_from_upload
    rw [if_neg (by simp [h1, h2]), if_pos (by simp [h3])]
  · intro fn txt pdf h1 h2 h3 h4
    unfold extract_text_from_upload
    rw [if_neg (by simp [h1, h2]), if_neg (by simp [h3]), if_pos (by simp [h4])]
  · intro fn txt pdf docx h1 h2 h3 h4
    unfold extract_text_from_upload
    rw [if_neg (by simp [h1, h2]), if_neg (by simp [h3]), if_neg (by simp [h4])]
  · intro paths
    unfold extract_texts_from_files
    have h : (paths.map (fun p => (p, allFail))).map (fun f => fileChunk f.1 f.2)
        = paths.map (fun _ => ([] : Str)) := by
      rw [List.map_map]
      exact List.map_congr_left fun p _ => fileChunk_allFail p
    rw [h]
    have h2 : (paths.map (fun _ => ([] : Str))).filter (fun c => c ≠ []) = [] := by
      induction paths with
      | nil => rfl
      | cons a t ih => simpa using ih
    rw [h2]
    rfl

/-- C7 witness: the extraction facts at a concrete corrupt PDF, DOCX,
unsupported file and an all-failing batch. -/
theorem extraction_total_spec_witness :
    extract_text_from_upload ("report.PDF".data) [] (Except.error ())
        (Except.ok []) = [] ∧
    extract_text_from_upload ("notes.docx".data) [] (Except.ok [])
        (Except.error ()) = [] ∧
    extract_text_from_upload ("image.png".data) [] (Except.error ())
        (Except.error ()) = [] ∧
    extract_texts_from_files ([("a.pdf".data, allFail), ("b.txt".data, allFail)])
        = [] := by
  refine ⟨?_, ?_, ?_, ?_⟩
  · exact extraction_total_spec.1 ("report.PDF".data) [] (Except.ok [])
      (by decide) (by decide) (by decide)
  · exact extraction_total_spec.2.1 ("notes.docx".data) [] (Except.ok [])
      (by decide) (by decide) (by decide) (by decide)
  · exact extraction_total_spec.2.2.1 ("image.png".data) [] (Except.error ())
      (Except.error ()) (by decide) (by decide) (by decide) (by decide)
  · exact extraction_total_spec.2.2.2.2.2.2
      [("a.pdf".data), ("b.txt".data)]

/-- C1 (counterexample): formatting "**Evento** il 5 maggio 🎉" for the
press channel does not interpret the `**` markers: the whole emoji-stripped
text is wrapped in the strong tag, the literal `**` survives, and the
output differs from the claimed "<strong>Evento</strong> il 5 maggio ". -/
theorem format_press_markers_cex :
    format_for_channel ("**Evento** il 5 maggio 🎉".data) ("press".data)
        = ("<strong>**Evento** il 5 maggio </strong>".data) ∧
    format_for_channel ("**Evento** il 5 maggio 🎉".data) ("press".data)
        ≠ ("<strong>Evento</strong> il 5 maggio ".data) ∧
    containsSub ("**".data)
      (format_for_channel ("**Evento** il 5 maggio 🎉".data) ("press".data))
        = true := ⟨by decide, by decide, by decide⟩

/-- C1 (amended): for website/press channels the formatter strips emoji
first (its output is invariant under pre-stripping, and never contains an
emoji character) and then wraps the emoji-stripped text in an HTML strong
tag; `**` markers are not interpreted and remain literal, so the example of the claim
formats to "<strong>**Evento** il 5 maggio </strong>". -/
theorem format_press_strips_emoji_then_wraps :
    (∀ text : Str, format_for_channel text ("press".data)
        = format_for_channel (remove_emojis text) ("press".data)) ∧
    (∀ (text ch : Str), pyLower ch ≠ ("social".data) →
      (format_for_channel text ch).filter isEmojiChar = []) ∧
    format_for_channel ("**Evento** il 5 maggio 🎉".data) ("press".data)
      = ("<strong>**Evento** il 5 maggio </strong>".data) := by
  refine ⟨?_, ?_, by decide⟩
  · intro text
    unfold format_for_channel
    rw [if_neg (by decide), if_neg (by decide), remove_emojis_idem]
  · intro text ch h
    unfold format_for_channel
    rw [if_neg h]
    cases hfs : findSplit ([':']) (remove_emojis text) with
    | none =>
      dsimp only
      rw [hfs]
      dsimp only
      simp only [List.filter_append]
      rw [no_emoji_filter _ (by decide), no_emoji_filter _ (remove_emojis_no_emoji text),
        no_emoji_filter _ (by decide)]
      rfl
    | some pr =>
      obtain ⟨head, tail⟩ := pr
      obtain ⟨hh, htl⟩ := findSplit_parts_subset ([':']) (remove_emojis text) head tail hfs
      dsimp only
      rw [hfs]
      dsimp only
      simp only [List.filter_append]
      rw [no_emoji_filter _ (by decide),
        no_emoji_filter _
          (fun c hc => remove_emojis_no_emoji text c (hh c (pyStrip_subset head c hc))),
        no_emoji_filter _ (by decide),
        no_emoji_filter _ (fun c hc => remove_emojis_no_emoji text c (htl c hc))]
      rfl

/-- C1 witness: the emoji-free property of the non-social output at a
concrete input. -/
theorem format_press_strips_emoji_witness :
    (format_for_channel ("Ciao 🎉".data) ("Stampa".data)).filter isEmojiChar = [] :=
  format_press_strips_emoji_then_wraps.2.1 ("Ciao 🎉".data) ("Stampa".data)
    (by decide)

/-- C2 (counterexample): social formatting does not parse the `**` markers:
"**Ciao** mondo 🎉" is bolded wholesale — asterisks kept, every letter
bolded — instead of bolding only the marked phrase. -/
theorem format_social_whole_text_cex :
    format_for_channel ("**Ciao** mondo 🎉".data) ("social".data)
        = ("**𝐂𝐢𝐚𝐨** 𝐦𝐨𝐧𝐝𝐨 🎉".data) ∧
    format_for_channel ("**Ciao** mondo 🎉".data) ("social".data)
        ≠ ("𝐂𝐢𝐚𝐨 mondo 🎉".data) := ⟨by decide, by decide⟩

/-- C2 (amended): social formatting applies the Unicode-bold transform to
the entire text (markers stay literal); emoji are preserved by the social
path (the bold transform is the identity outside the ASCII ranges), the
social output differs from the website output on the marked example
of the claim, and only the non-social channels strip emoji (the latter per the
C1 theorem). -/
theorem format_social_unicode_bold_spec :
    (∀ text : Str, format_for_channel text ("social".data) = unicode_bold text) ∧
    (∀ text : Str, (format_for_channel text ("social".data)).filter isEmojiChar
        = text.filter isEmojiChar) ∧
    format_for_channel ("**Ciao** mondo 🎉".data) ("social".data)
      ≠ format_for_channel ("**Ciao** mondo 🎉".data) ("website".data) ∧
    format_for_channel ("**Ciao** mondo 🎉".data) ("social".data)
      = ("**𝐂𝐢𝐚𝐨** 𝐦𝐨𝐧𝐝𝐨 🎉".data) := by
  have h1 : ∀ text : Str, format_for_channel text ("social".data) = unicode_bold text := by
    intro text
    unfold format_for_channel
    rw [if_pos (by decide)]
  refine ⟨h1, ?_, by decide, by decide⟩
  intro text
  rw [h1 text]
  exact filter_emoji_unicode_bold text

/-- C3 (counterexample): with limit 1 splitting "a b" yields the chunks
"1/2 " and "2/2 ": the numbering prefix alone exceeds the limit, so the
bound "every chunk (prefix included) has length ≤ L for every limit L"
fails. -/
theorem split_limit_bound_cex :
    split_into_posts ("a b".data) 1 = some [("1/2 ".data), ("2/2 ".data)] ∧
    1 < (("1/2 ".data) : Str).length := ⟨by decide, by decide⟩

/-- C3 (amended): for limit ≥ 1, whenever every numbering prefix itself
fits within the limit, every produced chunk has length ≤ limit (the
numbering pass truncates the body so prefix + body still fits); and a
single word longer than the limit is hard-sliced into ⌈len/limit⌉ chunks.
Without the prefix-fits hypothesis the bound fails (see the
counterexample). -/
theorem split_chunk_length_bound (text : Str) (limit : Nat) (hl : 1 ≤ limit)
    (raw out : List Str) (hraw : rawChunks text limit = some raw)
    (hout : split_into_posts text limit = some out)
    (hpfx : ∀ j, j < raw.length → (pfx (1 + j) raw.length).length ≤ limit) :
    (∀ c ∈ out, c.length ≤ limit) ∧
    (∀ w : Str, pySplit (pyStrip text) = [w] → limit < w.length →
      out.length = (w.length + limit - 1) / limit) := by
  have hout' : out = if 1 < raw.length then numberChunks limit raw.length 1 raw
      else raw := by
    unfold split_into_posts at hout
    rw [hraw] at hout
    rw [show Option.map
      (fun chunks => if 1 < chunks.length then numberChunks limit chunks.length 1 chunks
        else chunks) (some raw)
      = some (if 1 < raw.length then numberChunks limit raw.length 1 raw else raw)
      from rfl] at hout
    injection hout with h
    exact h.symm
  constructor
  · obtain ⟨raw', hraw', hbound, _⟩ := rawChunks_spec text limit hl
    have hrr : raw' = raw := by
      rw [hraw] at hraw'
      exact (Option.some.inj hraw').symm
    subst hrr
    intro c hc
    rw [hout'] at hc
    by_cases h1 : 1 < raw'.length
    · rw [if_pos h1] at hc
      exact numberChunks_le limit raw'.length raw' 1 hpfx c hc
    · rw [if_neg h1] at hc
      exact (hbound c hc).1
  · intro w hw hlong
    obtain ⟨raw2, hraw2, hcount⟩ := rawChunks_single_word text limit hl w hw hlong
    have hrr : raw2 = raw := by
      rw [hraw] at hraw2
      exact (Option.some.inj hraw2).symm
    subst hrr
    rw [hout']
    by_cases h1 : 1 < raw2.length
    · rw [if_pos h1, numberChunks_length]
      exact hcount
    · rw [if_neg h1]
      exact hcount

/-- C3 witness: a 24-character word split at limit 10 gives 3 chunks, each
within the limit, and the chunk count is ⌈24/10⌉. -/
theorem split_chunk_length_bound_witness :
    (("1/3 aaaaaa".data) : Str).length ≤ 10 ∧
    ([("1/3 aaaaaa".data), ("2/3 aaaaaa".data), ("3/3 aaaa".data)] : List Str).length
      = ((("aaaaaaaaaaaaaaaaaaaaaaaa".data) : Str).length + 10 - 1) / 10 :=
  ⟨(split_chunk_length_bound ("aaaaaaaaaaaaaaaaaaaaaaaa".data) 10 (by decide)
      [("aaaaaaaaaa".data), ("aaaaaaaaaa".data), ("aaaa".data)]
      [("1/3 aaaaaa".data), ("2/3 aaaaaa".data), ("3/3 aaaa".data)]
      (by decide) (by decide) (by decide)).1 ("1/3 aaaaaa".data) (by decide),
   (split_chunk_length_bound ("aaaaaaaaaaaaaaaaaaaaaaaa".data) 10 (by decide)
      [("aaaaaaaaaa".data), ("aaaaaaaaaa".data), ("aaaa".data)]
      [("1/3 aaaaaa".data), ("2/3 aaaaaa".data), ("3/3 aaaa".data)]
      (by decide) (by decide) (by decide)).2 ("aaaaaaaaaaaaaaaaaaaaaaaa".data)
      (by decide) (by decide)⟩

/-- C4 (counterexample): splitting "aaaa" with limit 2 hard-slices the word
into "aa"/"aa" and the numbering pass then truncates both bodies away (room
= 2 - 4 < 0), leaving chunks "1/2 " and "2/2 ": the round trip (strip
prefixes, join, re-split) returns no words instead of the original word
sequence ["aaaa"]. -/
theorem split_roundtrip_cex :
    roundTrip ("aaaa".data) 2 = some [] ∧
    pySplit ("aaaa".data) = [("aaaa".data)] ∧
    roundTrip ("aaaa".data) 2 ≠ some (pySplit ("aaaa".data)) :=
  ⟨by decide, by decide, by decide⟩

/-- C4 (amended): for limit ≥ 1, provided no word of the input exceeds the
limit (no hard-slicing) and every chunk together with its numbering prefix
fits within the limit (no truncation), stripping the numbering prefixes,
joining the chunks and re-collapsing whitespace reproduces the
whitespace-separated word sequence of the input.  Hard-sliced words and truncated chunk
bodies break the property (see the counterexample). -/
theorem split_roundtrip_words (text : Str) (limit : Nat) (hl : 1 ≤ limit)
    (raw : List Str) (hraw : rawChunks text limit = some raw)
    (hwords : ∀ w ∈ pySplit text, w.length ≤ limit)
    (hfits : FitsFrom limit raw.length 1 raw) :
    roundTrip text limit = some (pySplit text) := by
  by_cases ht : pyStrip text = []
  · have hsplit : pySplit text = [] := by
      rw [← pySplit_pyStrip, ht]
      rfl
    have hraw0 : raw = [] := by
      unfold rawChunks at hraw
      rw [if_pos ht] at hraw
      injection hraw with h
      exact h.symm
    subst hraw0
    unfold roundTrip split_into_posts
    rw [hraw, hsplit]
    rfl
  · obtain ⟨gps, hg, hgood, hflat⟩ := rawChunks_words text limit hl hwords ht
    have hr : raw = gps.map joinSp := by
      rw [hg] at hraw
      injection hraw with h
      exact h.symm
    have hwordsOk : ∀ w ∈ gps.flatten, wordOk w := by
      intro w hw
      rw [hflat] at hw
      exact wordOk_pySplit text w hw
    have hjoin : pySplit (joinSp raw) = pySplit text := by
      rw [hr, joinSp_flatten gps (fun l hl' => (hgood l hl').1),
        pySplit_joinSp gps.flatten hwordsOk, hflat]
    unfold roundTrip split_into_posts
    rw [hraw]
    show some (pySplit (joinSp (stripNums
      (if 1 < raw.length then numberChunks limit raw.length 1 raw else raw))))
      = some (pySplit text)
    by_cases hlen : 1 < raw.length
    · rw [if_pos hlen]
      have hnum : stripNums (numberChunks limit raw.length 1 raw) = raw := by
        unfold stripNums
        rw [numberChunks_length, if_pos hlen]
        exact stripFrom_numberChunks limit raw.length raw 1 hfits
      rw [hnum, hjoin]
    · rw [if_neg hlen]
      have hnum : stripNums raw = raw := by
        unfold stripNums
        rw [if_neg hlen]
      rw [hnum, hjoin]

/-- C4 witness: "aaaaaa bbbbbb" at limit 11 splits into two chunks whose
prefixed forms still fit, and the round trip restores the word sequence. -/
theorem split_roundtrip_words_witness :
    roundTrip ("aaaaaa bbbbbb".data) 11 = some (pySplit ("aaaaaa bbbbbb".data)) :=
  split_roundtrip_words ("aaaaaa bbbbbb".data) 11 (by decide)
    [("aaaaaa".data), ("bbbbbb".data)] (by decide) (by decide) (by decide)

/-- C8 (counterexample): with limit 0 the slicing loop of the Python splitter
(`w = w[0:]`) makes no progress, so the call never returns on any input
containing a non-whitespace character — modelled by `none`; hence the
splitter does not return a non-empty sequence for every input/limit pair. -/
theorem split_limit_zero_cex : split_into_posts ("a".data) 0 = none := by decide

/-- C8 (amended): for every limit ≥ 1 the splitter terminates; it returns
the empty sequence exactly on empty/whitespace-only input (equivalently:
`pyStrip text = []`); when more than one chunk results, the output is the
numbered chunk list and chunk i carries the "i/total " prefix, and when at
most one chunk results the output is the raw chunk list with no prefix
added; splitting "hello world" at 280 yields the single unprefixed chunk
["hello world"]. -/
theorem split_empty_iff_numbering :
    (∀ (text : Str) (limit : Nat), 1 ≤ limit →
      split_into_posts text limit ≠ none) ∧
    (∀ (text : Str) (limit : Nat) (out : List Str), 1 ≤ limit →
      split_into_posts text limit = some out →
      ((out = [] ↔ pyStrip text = []) ∧
       (∀ raw, rawChunks text limit = some raw →
         (1 < out.length →
           (out = numberChunks limit raw.length 1 raw ∧
            ∀ j, j < out.length →
              (pfx (1 + j) raw.length).isPrefixOf (out.getD j []) = true)) ∧
         (out.length ≤ 1 → out = raw)))) ∧
    split_into_posts ("hello world".data) 280 = some [("hello world".data)] := by
  have hkey : ∀ (text : Str) (limit : Nat), 1 ≤ limit →
      ∃ raw, rawChunks text limit = some raw ∧
        split_into_posts text limit =
          some (if 1 < raw.length then numberChunks limit raw.length 1 raw
            else raw) ∧
        (raw = [] ↔ pyStrip text = []) := by
    intro text limit hl
    obtain ⟨raw, hraw, _, hiff⟩ := rawChunks_spec text limit hl
    refine ⟨raw, hraw, ?_, hiff⟩
    unfold split_into_posts
    rw [hraw]
    rfl
  refine ⟨?_, ?_, by decide⟩
  · intro text limit hl
    obtain ⟨raw, _, hout, _⟩ := hkey text limit hl
    rw [hout]
    simp
  · intro text limit out hl hout
    obtain ⟨raw, hraw, hout', hiff⟩ := hkey text limit hl
    rw [hout] at hout'
    have hoeq : out = if 1 < raw.length then numberChunks limit raw.length 1 raw
        else raw := Option.some.inj hout'
    constructor
    · rw [hoeq]
      by_cases h1 : 1 < raw.length
      · rw [if_pos h1]
        constructor
        · intro hn
          have := numberChunks_length limit raw.length raw 1
          rw [hn] at this
          simp at this
          omega
        · intro hs
          rw [hiff.mpr hs] at h1
          simp at h1
      · rw [if_neg h1]
        exact hiff
    · intro raw' hraw'
      have hrr : raw' = raw := by
        rw [hraw] at hraw'
        exact (Option.some.inj hraw').symm
      subst hrr
      constructor
      · intro hlen
        have h1 : 1 < raw'.length := by
          rw [hoeq] at hlen
          by_cases h : 1 < raw'.length
          · exact h
          · rw [if_neg h] at hlen
            exact absurd hlen h
        rw [hoeq, if_pos h1]
        refine ⟨rfl, ?_⟩
        intro j hj
        rw [numberChunks_length] at hj
        exact numberChunks_pfx limit raw'.length raw' 1 j hj
      · intro hlen
        by_cases h : 1 < raw'.length
        · rw [hoeq, if_pos h] at hlen
          rw [numberChunks_length] at hlen
          omega
        · rw [hoeq, if_neg h]

/-- C8 witness: the amended facts at concrete inputs — limit 1 on "a"
terminates, and "hi" at limit 5 returns the single unprefixed chunk. -/
theorem split_empty_iff_numbering_witness :
    split_into_posts ("a".data) 1 ≠ none ∧
    (([("hi".data)] : List Str) = [] ↔ pyStrip ("hi".data) = []) :=
  ⟨split_empty_iff_numbering.1 ("a".data) 1 (by decide),
   (split_empty_iff_numbering.2.1 ("hi".data) 5 [("hi".data)] (by decide)
     (by decide)).1⟩

/-- C2 witness: the social branch equals the whole-text bold transform at a
concrete input. -/
theorem format_social_unicode_bold_witness :
    format_for_channel ("Ciao".data) ("social".data) = unicode_bold ("Ciao".data) :=
  format_social_unicode_bold_spec.1 ("Ciao".data)

/-- C6 witness: the fallback equality at a concrete failing call. -/
theorem ai_rewrite_fallback_spec_witness :
    ai_rewrite_or_fallback none ("testo".data) defaultProfile []
      = fallback_template ("testo".data) defaultProfile :=
  ai_rewrite_fallback_spec.1 ("testo".data) defaultProfile []
